import Mathlib

/-
  Verification of the two command-line utilities of this repository:
  a byte transliterator (tu_tr.cpp) and a line/word/byte counter (tu_wc.cpp).

  Bytes delivered by a stream are modelled as natural numbers below 256.
  The programs store each byte in a C `char`, which on the target platform
  is a signed 8-bit integer; `toChar` embeds that conversion explicitly.
  Counters (`off_t`) only ever increment, so they are modelled as `Nat`.
-/

set_option maxRecDepth 4000

/-- Conversion of a byte value to a signed `char` (two-complement, 8 bits),
as performed by `char ch = getchar()` and by reading `argv` characters. -/
def toChar (b : Nat) : Int :=
  if b % 256 < 128 then ((b % 256 : Nat) : Int) else ((b % 256 : Nat) : Int) - 256

/-- Sentinel `NO_MATCH = -1` from tu_tr.cpp, stored in the `char` table. -/
def NO_MATCH : Int := -1

/-- Indexing into a C string: positions past the end read the terminator 0.
The build loop of tu_tr.cpp reads `arg2[pos2]` with `pos2 = 0` when `arg2`
is empty, which yields the terminator. -/
def cstrAt (s : List Nat) (i : Nat) : Nat := s.getD i 0

/-- Pointwise update of the translation table. The table is modelled as a
total function on `Int` because the index `(int)c` of a signed char ranges
over [-128, 127]; entries never written hold `NO_MATCH`. -/
def mapUpd (m : Int → Int) (i v : Int) : Int → Int :=
  fun j => if j = i then v else m j

/-- One iteration of the table-building loop of tu_tr.cpp (lines 59-64):
`map[(int)arg1[pos1]] = arg2[pos2]; if (pos2 < arg2MaxValidPos) ++pos2;`.
The state is the pair (pos2, map). For an empty `arg2`, `arg2MaxValidPos`
is -1 and the guard `pos2 < arg2MaxValidPos` is false for every `pos2 ≥ 0`,
which the truncated subtraction `arg2.length - 1` reproduces. -/
def buildStep (arg2 : List Nat) (st : Nat × (Int → Int)) (c : Nat) : Nat × (Int → Int) :=
  (if st.1 < arg2.length - 1 then st.1 + 1 else st.1,
   mapUpd st.2 (toChar c) (toChar (cstrAt arg2 st.1)))

/-- The full table construction of tu_tr.cpp: all entries start at
`NO_MATCH`, then the loop runs over `arg1` with `pos2` starting at 0. -/
def buildMap (arg1 arg2 : List Nat) : Int → Int :=
  (arg1.foldl (buildStep arg2) (0, fun _ => NO_MATCH)).2

/-- The per-byte output of tu_tr.cpp (lines 74-77): a mapped entry is
written through `putchar` (conversion to unsigned char, i.e. mod 256),
otherwise the input char itself is written. -/
def transform (m : Int → Int) (b : Nat) : Nat :=
  if m (toChar b) ≠ NO_MATCH then ((m (toChar b)) % 256).toNat
  else ((toChar b) % 256).toNat

/-- The read loop of tu_tr.cpp (lines 66-87) on a stream that delivers the
listed bytes and then reports either clean end-of-stream or a read error.
Result: (bytes written, exit code of the loop and epilogue, whether a
diagnostic was printed). A byte whose char value is -1 compares equal to
EOF and stops the loop; `ferror` is false in that case. The `ch >= 256`
branch is retained from the source (lines 68-71). -/
def trProcess (m : Int → Int) : List Nat → Bool → List Nat × Nat × Bool
  | [], err => ([], 0, err)
  | b :: bs, err =>
    if toChar b = -1 then ([], 0, false)
    else if (256 : Int) ≤ toChar b then ([], 1, true)
    else
      let r := trProcess m bs err
      (transform m b :: r.1, r.2.1, r.2.2)

/-- The whole of tu_tr.cpp `main`: argument-count check (argc != 3 exits 1
with a usage message), then table build and the read loop. -/
def trMain (nargs : Nat) (arg1 arg2 inputBytes : List Nat) (readErr : Bool) :
    List Nat × Nat × Bool :=
  if nargs ≠ 3 then ([], 1, true)
  else trProcess (buildMap arg1 arg2) inputBytes readErr

/-- State of the counting loop in ProcessFile of tu_wc.cpp. -/
structure WcState where
  lineNum : Nat
  wordNum : Nat
  byteNum : Nat
  prevCh : Int
  prevWasSpace : Bool
deriving DecidableEq, Repr

/-- The C-locale `isspace` on a char value promoted to int: space, tab,
newline, carriage return, vertical tab, form feed. Negative char values
(bytes 128-255) are not whitespace. -/
def isspaceC (c : Int) : Bool :=
  decide (c = 32 ∨ c = 9 ∨ c = 10 ∨ c = 13 ∨ c = 11 ∨ c = 12)

/-- One iteration of the counting loop of tu_wc.cpp (lines 198-222),
in source order: line rule, whitespace classification, word rule,
byte increment, then the state updates. -/
def wcStep (s : WcState) (b : Nat) : WcState :=
  { lineNum :=
      if toChar b = 13 then s.lineNum + 1
      else if toChar b = 10 ∧ s.prevCh ≠ 13 then s.lineNum + 1
      else s.lineNum,
    wordNum :=
      if (!isspaceC (toChar b)) && s.prevWasSpace then s.wordNum + 1
      else s.wordNum,
    byteNum := s.byteNum + 1,
    prevCh := toChar b,
    prevWasSpace := isspaceC (toChar b) }

/-- Initial state: `prevCh = INVALID_CHAR = -1`, `bPrevWasSpace = true`
(tu_wc.cpp lines 183-188). -/
def wcInit : WcState := ⟨0, 0, 0, -1, true⟩

/-- Scanning one source: every delivered byte is processed. A byte 255
reads as char -1, but the loop condition
`ch != EOF || (!feof(file) && !ferror(file))` keeps it in the scan, so
the fold runs over the whole delivered sequence. -/
def processBytes (bs : List Nat) : WcState := bs.foldl wcStep wcInit

/-- Outcome of opening and reading one named source: either `fopen`
failed, or the stream delivered the listed bytes and then reported a read
error (`ferror`) or a clean end-of-stream. -/
inductive SrcOutcome where
  | openFail : SrcOutcome
  | stream : List Nat → Bool → SrcOutcome
deriving DecidableEq, Repr

/-- ProcessFile of tu_wc.cpp as observed through its return value: on
`ferror` it returns false before touching the totals, otherwise it yields
the accumulated counters. -/
def processFile (bs : List Nat) (readErr : Bool) : Option WcState :=
  if readErr then none else some (processBytes bs)

/-- The file loop of tu_wc.cpp `main` (lines 130-145): a source that fails
to open is skipped, a source whose ProcessFile fails adds nothing, a
successful source adds its three counters to the running totals. -/
def runFiles : List SrcOutcome → Nat × Nat × Nat → Nat × Nat × Nat
  | [], t => t
  | SrcOutcome.openFail :: rest, t => runFiles rest t
  | SrcOutcome.stream bs err :: rest, t =>
    match processFile bs err with
    | none => runFiles rest t
    | some s => runFiles rest (t.1 + s.lineNum, t.2.1 + s.wordNum, t.2.2 + s.byteNum)

/-- Iterations of `while (n >= 10) n /= 10` with an explicit bound on the
recursion depth; the loop variable strictly decreases, so any bound of at
least `n` is enough, which `digitLoop_eq` below makes precise. -/
def digitLoopF : Nat → Nat → Nat
  | 0, _ => 0
  | fuel + 1, n => if n < 10 then 0 else 1 + digitLoopF fuel (n / 10)

/-- The width loop of tu_wc.cpp (lines 125-128 and 155-158): number of
iterations of `while (n >= 10) n /= 10`. -/
def digitLoop (n : Nat) : Nat := digitLoopF n n

/-- Column width: starts at `MIN_COLUMN_WIDTH = 2` and gains one per loop
iteration. -/
def columnWidthOf (n : Nat) : Nat := 2 + digitLoop n

/-- Width selection of tu_wc.cpp `main`: with named sources the width
comes from the sum of the stat() sizes, computed before any processing;
with no named sources it is derived from the byte count of stdin. -/
def wcColumnWidth (sizes : List Nat) (stdinBytes : List Nat) : Nat :=
  if 0 < sizes.length then columnWidthOf sizes.sum
  else columnWidthOf (processBytes stdinBytes).byteNum

/-- Total-row condition of tu_wc.cpp (line 164):
`if (bUsingStdin || fileNum > 1)`, where `fileNum` is the number of named
sources given on the command line. -/
def emitsTotal (srcs : List SrcOutcome) : Bool :=
  decide (srcs.length = 0) || decide (1 < srcs.length)

/-- Label of the total row (lines 110 and 147): "total" whenever named
sources were given, empty for the stdin case. -/
def totalLabel (srcs : List SrcOutcome) : String :=
  if 0 < srcs.length then "total" else ""

/-
  Specification-side definitions, taken from the wording of the claims.
-/

/-- ASCII whitespace on byte values, as the spec lists it: space, tab,
newline, carriage return, vertical tab, form feed. -/
def isWS (b : Nat) : Bool :=
  decide (b = 32 ∨ b = 9 ∨ b = 10 ∨ b = 13 ∨ b = 11 ∨ b = 12)

/-- Line count as the claim states it: a byte 13 counts, a byte 10 counts
exactly when the immediately preceding byte was not 13. -/
def linesSpec : Option Nat → List Nat → Nat
  | _, [] => 0
  | prev, b :: bs =>
    (if b = 13 then 1 else if b = 10 ∧ prev ≠ some 13 then 1 else 0) +
      linesSpec (some b) bs

/-- Number of maximal contiguous runs of non-whitespace bytes. -/
def runCount : List Nat → Nat
  | [] => 0
  | b :: bs =>
    if isWS b then runCount bs
    else 1 + runCount (bs.dropWhile (fun x => !isWS x))
termination_by l => l.length
decreasing_by
  · simp
  · simp only [List.length_cons]
    have h : (bs.dropWhile (fun x => !isWS x)).length ≤ bs.length :=
      (List.dropWhile_sublist _).length_le
    omega

/-- Number of decimal digits of a total. -/
def digitCount (n : Nat) : Nat := (Nat.digits 10 n).length

/-- The counters one source contributes when it is successfully
processed: an open failure or a read error yields none. -/
def countsOf : SrcOutcome → Option (Nat × Nat × Nat)
  | SrcOutcome.openFail => none
  | SrcOutcome.stream bs err =>
    if err then none
    else some ((processBytes bs).lineNum, (processBytes bs).wordNum,
               (processBytes bs).byteNum)

/-- The counters of each successfully processed source, in order. -/
def successCounts (srcs : List SrcOutcome) : List (Nat × Nat × Nat) :=
  srcs.filterMap countsOf

/-- Number of successfully processed sources. -/
def successNum (srcs : List SrcOutcome) : Nat := (successCounts srcs).length

/-- Pairwise sum of triples of counters. -/
def sumTriples (l : List (Nat × Nat × Nat)) : Nat × Nat × Nat :=
  ((l.map fun c => c.1).sum, (l.map fun c => c.2.1).sum, (l.map fun c => c.2.2).sum)

/-
  Arithmetic facts about the char conversion.
-/

/-- Range of a signed char value. -/
theorem toChar_bounds (b : Nat) : -128 ≤ toChar b ∧ toChar b < 128 := by
  unfold toChar
  have h := Nat.mod_lt b (show 0 < 256 by omega)
  split <;> omega

/-- The char conversion is injective on byte values. -/
theorem toChar_inj {a b : Nat} (ha : a < 256) (hb : b < 256)
    (h : toChar a = toChar b) : a = b := by
  unfold toChar at h
  rw [Nat.mod_eq_of_lt ha, Nat.mod_eq_of_lt hb] at h
  split at h <;> split at h <;> omega

/-- Only the byte 255 reads as the char value -1 (the EOF collision). -/
theorem toChar_eq_neg_one {b : Nat} (hb : b < 256) : toChar b = -1 ↔ b = 255 := by
  unfold toChar
  rw [Nat.mod_eq_of_lt hb]
  split <;> omega

/-- Writing a char through putchar (conversion to unsigned char) restores
the original byte value. -/
theorem toChar_mod_toNat {b : Nat} (hb : b < 256) : ((toChar b) % 256).toNat = b := by
  unfold toChar
  rw [Nat.mod_eq_of_lt hb]
  split <;> omega

/-- The `isspace` classification of a char agrees with the byte-level
whitespace set for every byte value. -/
theorem isspaceC_toChar {b : Nat} (hb : b < 256) : isspaceC (toChar b) = isWS b := by
  unfold isspaceC isWS
  rw [decide_eq_decide]
  unfold toChar
  rw [Nat.mod_eq_of_lt hb]
  split <;> omega

/-
  Behaviour of the table-building fold.
-/

/-- A table entry whose key no source character hits is left unchanged. -/
theorem build_untouched (tgt : List Nat) :
    ∀ (src : List Nat) (st : Nat × (Int → Int)) (k : Int),
      (∀ y ∈ src, toChar y ≠ k) → ((src.foldl (buildStep tgt) st).2) k = st.2 k := by
  intro src
  induction src with
  | nil => intro st k _; rfl
  | cons c rest ih =>
    intro st k hk
    rw [List.foldl_cons]
    rw [ih _ k (fun y hy => hk y (List.mem_cons_of_mem _ hy))]
    have hck : toChar c ≠ k := hk c (List.mem_cons_self _ _)
    simp only [buildStep, mapUpd]
    rw [if_neg fun h => hck h.symm]

/-- After the loop runs with `pos2` already at its maximum
`strlen(arg2) - 1`, every character of the remaining source suffix is
mapped to the last target character. -/
theorem build_from_last (tgt : List Nat) :
    ∀ (src : List Nat) (st : Nat × (Int → Int)) (x : Nat),
      st.1 = tgt.length - 1 → (∀ y ∈ src, y < 256) → x ∈ src →
      ((src.foldl (buildStep tgt) st).2) (toChar x)
        = toChar (cstrAt tgt (tgt.length - 1)) := by
  intro src
  induction src with
  | nil => intro st x _ _ hx; exact absurd hx (List.not_mem_nil x)
  | cons c rest ih =>
    intro st x hst hb hx
    rw [List.foldl_cons]
    by_cases hmem : x ∈ rest
    · refine ih _ x ?_ (fun y hy => hb y (List.mem_cons_of_mem _ hy)) hmem
      show (if st.1 < tgt.length - 1 then st.1 + 1 else st.1) = tgt.length - 1
      rw [hst]
      simp
    · have hxc : x = c := by
        rcases List.mem_cons.mp hx with h | h
        · exact h
        · exact absurd h hmem
      subst hxc
      have hside : ∀ y ∈ rest, toChar y ≠ toChar x := by
        intro y hy heq
        have hyx : y = x :=
          toChar_inj (hb y (List.mem_cons_of_mem _ hy)) (hb x (List.mem_cons_self _ _)) heq
        exact hmem (hyx ▸ hy)
      rw [build_untouched tgt rest _ (toChar x) hside]
      simp only [buildStep, mapUpd]
      simp [hst]

/-- Evolution of `pos2` along the build loop: it advances by one per
source character until it reaches `strlen(arg2) - 1`. -/
theorem build_pos2 (tgt : List Nat) :
    ∀ (l : List Nat) (p : Nat) (m : Int → Int), p ≤ tgt.length - 1 →
      ((l.foldl (buildStep tgt) (p, m)).1) = min (p + l.length) (tgt.length - 1) := by
  intro l
  induction l with
  | nil => intro p m hp; simp; omega
  | cons c rest ih =>
    intro p m hp
    rw [List.foldl_cons]
    simp only [buildStep]
    by_cases h : p < tgt.length - 1
    · rw [if_pos h, ih (p + 1) _ (by omega)]
      simp only [List.length_cons]
      omega
    · rw [if_neg h, ih p _ hp]
      simp only [List.length_cons]
      omega

/-- When the target is the empty string, every write into the table
stores the char read from the terminator of the empty `arg2`, namely 0. -/
theorem build_empty_tgt : ∀ (src : List Nat) (st : Nat × (Int → Int)) (k : Int),
    ((∃ y ∈ src, toChar y = k) ∨ st.2 k = 0) →
    ((src.foldl (buildStep []) st).2) k = 0 := by
  intro src
  induction src with
  | nil =>
    intro st k h
    rcases h with ⟨y, hy, _⟩ | h
    · exact absurd hy (List.not_mem_nil y)
    · exact h
  | cons c rest ih =>
    intro st k h
    rw [List.foldl_cons]
    apply ih
    by_cases hkc : k = toChar c
    · right
      simp only [buildStep, mapUpd]
      rw [if_pos hkc]
      rfl
    · rcases h with ⟨y, hy, hyk⟩ | h
      · rcases List.mem_cons.mp hy with rfl | hyrest
        · exact absurd hyk.symm hkc
        · exact Or.inl ⟨y, hyrest, hyk⟩
      · right
        simp only [buildStep, mapUpd]
        rw [if_neg hkc]
        exact h

/-- An element read with `getD` at a position at or past `k` belongs to
the suffix obtained by dropping `k` elements. -/
theorem getD_mem_drop : ∀ (l : List Nat) (k i : Nat), k ≤ i → i < l.length →
    l.getD i 0 ∈ l.drop k := by
  intro l
  induction l with
  | nil => intro k i _ h; simp at h
  | cons a l ih =>
    intro k i hki hi
    cases k with
    | zero =>
      cases i with
      | zero => simp
      | succ j =>
        have hj : j < l.length := by simpa using hi
        have hmem := ih 0 j (Nat.zero_le _) hj
        simp only [List.drop_zero] at hmem
        simp only [List.drop_zero, List.getD_cons_succ]
        exact List.mem_cons_of_mem _ hmem
    | succ k =>
      obtain ⟨j, rfl⟩ : ∃ j, i = j + 1 := ⟨i - 1, by omega⟩
      simp only [List.getD_cons_succ, List.drop_succ_cons]
      exact ih k j (by omega) (by simpa using hi)

/-- Claim C1, counterexample: with source "a" and target the single byte
255, the claim says byte 97 maps to the last target byte 255; the built
entry equals the NO_MATCH sentinel (255 reads as char -1), so the
transliterator in fact passes 97 through unchanged. -/
theorem c1_cex :
    transform (buildMap [97] [255]) 97 = 97
    ∧ transform (buildMap [97] [255]) 97 ≠ 255 := by
  decide

/-- Claim C1 as amended: for non-empty C-string source and target byte
sequences with length(target) ≤ length(source), every source byte at
position length(target)-1 or beyond maps to the last byte of target
provided that byte is not 255 (a 255 target byte coincides with the
NO_MATCH sentinel and falls back to identity); every byte not present in
the source maps to itself; and source "abc", target "xy", input "abcabc"
yields output "xyyxyy". -/
theorem c1_amended (src tgt : List Nat)
    (hsb : ∀ b ∈ src, 0 < b ∧ b < 256) (htb : ∀ b ∈ tgt, 0 < b ∧ b < 256)
    (_hsne : src ≠ []) (htne : tgt ≠ []) (_hlen : tgt.length ≤ src.length) :
    (∀ i, i < src.length → tgt.length - 1 ≤ i → tgt.getD (tgt.length - 1) 0 ≠ 255 →
        transform (buildMap src tgt) (src.getD i 0) = tgt.getD (tgt.length - 1) 0)
    ∧ (∀ b, b < 256 → b ∉ src → transform (buildMap src tgt) b = b)
    ∧ (trProcess (buildMap [97, 98, 99] [120, 121]) [97, 98, 99, 97, 98, 99] false).1
        = [120, 121, 121, 120, 121, 121] := by
  have htpos : 0 < tgt.length := List.length_pos.mpr htne
  refine ⟨?_, ?_, by decide⟩
  · intro i hi hki hlast
    have hxdrop : src.getD i 0 ∈ src.drop (tgt.length - 1) :=
      getD_mem_drop src (tgt.length - 1) i hki hi
    have hsplit : buildMap src tgt
        = (((src.drop (tgt.length - 1)).foldl (buildStep tgt)
            ((src.take (tgt.length - 1)).foldl (buildStep tgt) (0, fun _ => NO_MATCH)))).2 := by
      unfold buildMap
      conv_lhs => rw [← List.take_append_drop (tgt.length - 1) src]
      rw [List.foldl_append]
    have hstate1 : ((src.take (tgt.length - 1)).foldl (buildStep tgt)
        (0, fun _ => NO_MATCH)).1 = tgt.length - 1 := by
      rw [build_pos2 tgt _ 0 _ (Nat.zero_le _), List.length_take]
      omega
    have hmapval : (buildMap src tgt) (toChar (src.getD i 0))
        = toChar (cstrAt tgt (tgt.length - 1)) := by
      rw [hsplit]
      exact build_from_last tgt (src.drop (tgt.length - 1)) _ (src.getD i 0) hstate1
        (fun y hy => (hsb y (List.drop_subset _ _ hy)).2) hxdrop
    have hLmem : tgt.getD (tgt.length - 1) 0 ∈ tgt := by
      have := getD_mem_drop tgt 0 (tgt.length - 1) (Nat.zero_le _) (by omega)
      simpa using this
    have hL := htb _ hLmem
    have hne : toChar (cstrAt tgt (tgt.length - 1)) ≠ NO_MATCH := by
      unfold NO_MATCH cstrAt
      rw [ne_eq, toChar_eq_neg_one hL.2]
      exact hlast
    unfold transform
    rw [hmapval, if_pos hne]
    unfold cstrAt
    exact toChar_mod_toNat hL.2
  · intro b hb hbs
    have huntouched : (buildMap src tgt) (toChar b) = NO_MATCH := by
      unfold buildMap
      rw [build_untouched tgt src _ (toChar b) ?_]
      intro y hy heq
      exact hbs ((toChar_inj (hsb y hy).2 hb heq) ▸ hy)
    unfold transform
    rw [huntouched]
    rw [if_neg (by simp)]
    exact toChar_mod_toNat hb

/-- Claim C1, witness: the amended theorem applied to source "abc",
target "xy", with position 2 (at or past length(target)-1 = 1) and the
absent byte 122. -/
theorem c1_amended_witness :
    transform (buildMap [97, 98, 99] [120, 121]) ([97, 98, 99].getD 2 0)
      = [120, 121].getD ([120, 121].length - 1) 0
    ∧ transform (buildMap [97, 98, 99] [120, 121]) 122 = 122 := by
  have h := c1_amended [97, 98, 99] [120, 121] (by decide) (by decide)
    (by decide) (by decide) (by decide)
  exact ⟨h.1 2 (by decide) (by decide) (by decide), h.2.1 122 (by decide) (by decide)⟩

/-- Claim C5, counterexample: with source "a" and empty target the claim
says every input passes through unchanged; the code instead maps byte 97
to the terminator byte 0 read from the empty second argument. -/
theorem c5_cex :
    transform (buildMap [97] []) 97 = 0
    ∧ transform (buildMap [97] []) 97 ≠ 97 := by
  decide

/-- Claim C5 as amended: with an empty target sequence, a byte present in
the source maps to byte 0 (the terminator of the empty argument string),
and a byte not present in the source passes through unchanged; with both
sequences empty the transliterator copies input "hello" verbatim. -/
theorem c5_amended (src : List Nat) (hsb : ∀ a ∈ src, 0 < a ∧ a < 256)
    (b : Nat) (hb : b < 256) :
    transform (buildMap src []) b = (if b ∈ src then 0 else b)
    ∧ (trProcess (buildMap [] []) [104, 101, 108, 108, 111] false).1
        = [104, 101, 108, 108, 111] := by
  constructor
  · by_cases hmem : b ∈ src
    · rw [if_pos hmem]
      have hzero : (buildMap src []) (toChar b) = 0 := by
        unfold buildMap
        exact build_empty_tgt src _ (toChar b) (Or.inl ⟨b, hmem, rfl⟩)
      unfold transform
      rw [hzero, if_pos (by unfold NO_MATCH; omega)]
      rfl
    · rw [if_neg hmem]
      have huntouched : (buildMap src []) (toChar b) = NO_MATCH := by
        unfold buildMap
        rw [build_untouched [] src _ (toChar b) ?_]
        intro y hy heq
        exact hmem ((toChar_inj (hsb y hy).2 hb heq) ▸ hy)
      unfold transform
      rw [huntouched, if_neg (by simp)]
      exact toChar_mod_toNat hb
  · decide

/-- Claim C5, witness: the amended theorem applied to source "a", byte 97. -/
theorem c5_amended_witness :
    transform (buildMap [97] []) 97 = (if 97 ∈ [97] then 0 else 97)
    ∧ (trProcess (buildMap [] []) [104, 101, 108, 108, 111] false).1
        = [104, 101, 108, 108, 111] :=
  c5_amended [97] (by decide) 97 (by decide)

/-- Helper: the read loop of tu_tr.cpp always finishes with exit code 0;
the range branch is unreachable because a char value is below 128. -/
theorem trProcess_exit (m : Int → Int) : ∀ (bs : List Nat) (err : Bool),
    (trProcess m bs err).2.1 = 0 := by
  intro bs
  induction bs with
  | nil => intro err; rfl
  | cons b bs ih =>
    intro err
    simp only [trProcess]
    by_cases h1 : toChar b = -1
    · rw [if_pos h1]
    · rw [if_neg h1]
      have h2 : ¬ ((256 : Int) ≤ toChar b) := by
        have := (toChar_bounds b).2
        omega
      rw [if_neg h2]
      exact ih err

/-- Claim C9, counterexample: with correct arguments and a stream that
reports a read error, the claim requires a non-zero exit status; the code
prints the diagnostic (third component true) but exits 0. -/
theorem c9_cex : trMain 3 [] [] [] true = ([], 0, true) := by
  rfl

/-- Claim C9 as amended: the process exits 1 on wrong argument count and
0 otherwise; an unrecoverable read error produces a diagnostic message
but leaves the exit status 0, and the out-of-range input check can never
fire because the input byte is stored in a char. -/
theorem c9_exit (nargs : Nat) (arg1 arg2 inputBytes : List Nat) (err : Bool) :
    (trMain nargs arg1 arg2 inputBytes err).2.1 = (if nargs ≠ 3 then 1 else 0)
    ∧ (trMain 3 arg1 arg2 [] true).2.2 = true := by
  constructor
  · unfold trMain
    by_cases h : nargs ≠ 3
    · rw [if_pos h, if_pos h]
    · rw [if_neg h, if_neg h]
      exact trProcess_exit _ inputBytes err
  · rfl

/-- Claim C4: evaluation of the code at the failing input. The input
bytes 97, 255, 98 are delivered by a cleanly ending stream, yet the
output has length 1, not 3: byte 255 stored in a char equals EOF and
stops the copy loop early. -/
theorem c4_eof_conflation :
    (trProcess (buildMap [] []) [97, 255, 98] false).1 = [97]
    ∧ ([97, 255, 98] : List Nat).length = 3 := by
  decide

/-- Claim C10: evaluation of the index computation at the failing input.
The argument or input byte 200 is converted to the signed char -56, so
the table access uses a negative index, outside [0, 255]. -/
theorem c10_index_bug : toChar 200 = -56 ∧ toChar 200 < 0 := by
  decide

/-
  The counting loop: relating the fold to the specification counts.
-/

/-- Helper: the line counter of the fold adds exactly the
specification-side line count, given that the stored previous char agrees
with the previous byte on being a carriage return. -/
theorem lines_fold : ∀ (bs : List Nat) (s : WcState) (prev : Option Nat),
    (∀ b ∈ bs, b < 256) → (s.prevCh = 13 ↔ prev = some 13) →
    (bs.foldl wcStep s).lineNum = s.lineNum + linesSpec prev bs := by
  intro bs
  induction bs with
  | nil => intro s prev _ _; simp [linesSpec]
  | cons b bs ih =>
    intro s prev hb hinv
    have hb256 : b < 256 := hb b (List.mem_cons_self _ _)
    have hrest : ∀ y ∈ bs, y < 256 := fun y hy => hb y (List.mem_cons_of_mem _ hy)
    have h13 : toChar b = 13 ↔ b = 13 := by
      unfold toChar
      rw [Nat.mod_eq_of_lt hb256]
      split <;> omega
    have h10 : toChar b = 10 ↔ b = 10 := by
      unfold toChar
      rw [Nat.mod_eq_of_lt hb256]
      split <;> omega
    have hinv2 : (wcStep s b).prevCh = 13 ↔ some b = some 13 := by
      show toChar b = 13 ↔ some b = some 13
      rw [h13]
      simp
    rw [List.foldl_cons, ih (wcStep s b) (some b) hrest hinv2]
    have hstep : (wcStep s b).lineNum
        = (if b = 13 then s.lineNum + 1
           else if b = 10 ∧ prev ≠ some 13 then s.lineNum + 1 else s.lineNum) := by
      show (if toChar b = 13 then s.lineNum + 1
            else if toChar b = 10 ∧ s.prevCh ≠ 13 then s.lineNum + 1 else s.lineNum) = _
      exact if_congr h13 rfl (if_congr (and_congr h10 (not_congr hinv)) rfl rfl)
    rw [hstep]
    simp only [linesSpec]
    split_ifs <;> omega

/-- Helper: prepending a whitespace byte does not change the number of
non-whitespace runs. -/
theorem runCount_cons_ws {b : Nat} (hw : isWS b = true) (bs : List Nat) :
    runCount (b :: bs) = runCount bs := by
  simp only [runCount, hw]
  simp

/-- Helper: prepending a non-whitespace byte starts one run, whose tail
is consumed by dropWhile. -/
theorem runCount_cons_nonws {b : Nat} (hw : isWS b = false) (bs : List Nat) :
    runCount (b :: bs) = 1 + runCount (bs.dropWhile (fun x => !isWS x)) := by
  simp only [runCount, hw]
  simp

/-- Helper: the word counter of the fold counts maximal non-whitespace
runs; when the state is mid-run, the leading partial run is not counted. -/
theorem words_fold : ∀ (bs : List Nat) (s : WcState), (∀ b ∈ bs, b < 256) →
    (bs.foldl wcStep s).wordNum
      = s.wordNum + (if s.prevWasSpace then runCount bs
                     else runCount (bs.dropWhile (fun x => !isWS x))) := by
  intro bs
  induction bs with
  | nil =>
    intro s _
    simp [runCount]
  | cons b bs ih =>
    intro s hb
    have hb256 : b < 256 := hb b (List.mem_cons_self _ _)
    have hrest : ∀ y ∈ bs, y < 256 := fun y hy => hb y (List.mem_cons_of_mem _ hy)
    rw [List.foldl_cons, ih (wcStep s b) hrest]
    have hsp : isspaceC (toChar b) = isWS b := isspaceC_toChar hb256
    have hword : (wcStep s b).wordNum
        = if (!isWS b) && s.prevWasSpace then s.wordNum + 1 else s.wordNum := by
      show (if (!isspaceC (toChar b)) && s.prevWasSpace then s.wordNum + 1 else s.wordNum) = _
      rw [hsp]
    have hprev : (wcStep s b).prevWasSpace = isWS b := by
      show isspaceC (toChar b) = isWS b
      exact hsp
    rw [hword, hprev]
    cases hw : isWS b with
    | true =>
      have hdw : (b :: bs).dropWhile (fun x => !isWS x) = b :: bs := by
        rw [List.dropWhile_cons]
        simp [hw]
      rw [hdw, runCount_cons_ws hw]
      simp [hw]
    | false =>
      have hdw : (b :: bs).dropWhile (fun x => !isWS x) = bs.dropWhile (fun x => !isWS x) := by
        rw [List.dropWhile_cons]
        simp [hw]
      rw [hdw, runCount_cons_nonws hw]
      cases hsw : s.prevWasSpace with
      | true =>
        simp [hw, hsw]
        omega
      | false => simp [hw, hsw]

/-- Helper: the byte counter of the fold adds the length of the input. -/
theorem bytes_fold : ∀ (bs : List Nat) (s : WcState),
    (bs.foldl wcStep s).byteNum = s.byteNum + bs.length := by
  intro bs
  induction bs with
  | nil => intro s; simp
  | cons b bs ih =>
    intro s
    rw [List.foldl_cons, ih]
    show s.byteNum + 1 + bs.length = s.byteNum + (b :: bs).length
    simp only [List.length_cons]
    omega

/-- Helper: a sequence of whitespace bytes has no non-whitespace run. -/
theorem runCount_all_ws : ∀ (bs : List Nat), (∀ b ∈ bs, isWS b = true) →
    runCount bs = 0 := by
  intro bs
  induction bs with
  | nil => intro _; simp [runCount]
  | cons b bs ih =>
    intro h
    rw [runCount_cons_ws (h b (List.mem_cons_self _ _))]
    exact ih fun y hy => h y (List.mem_cons_of_mem _ hy)

/-- Claim C2 (confirmed): for every input byte sequence, a carriage
return increments the line count and a newline increments it exactly when
the preceding byte was not a carriage return; the input
"foo\r\nbar\nbaz\r" yields exactly 3 lines. -/
theorem c2_lines (bs : List Nat) (hb : ∀ b ∈ bs, b < 256) :
    (processBytes bs).lineNum = linesSpec none bs
    ∧ (processBytes [102, 111, 111, 13, 10, 98, 97, 114, 10, 98, 97, 122, 13]).lineNum = 3 := by
  constructor
  · unfold processBytes
    rw [lines_fold bs wcInit none hb (by decide)]
    simp [wcInit]
  · decide

/-- Claim C2, witness: the theorem applied to the bytes of
"foo\r\nbar\nbaz\r". -/
theorem c2_lines_witness :
    (processBytes [102, 111, 111, 13, 10, 98, 97, 114, 10, 98, 97, 122, 13]).lineNum
      = linesSpec none [102, 111, 111, 13, 10, 98, 97, 114, 10, 98, 97, 122, 13]
    ∧ (processBytes [102, 111, 111, 13, 10, 98, 97, 114, 10, 98, 97, 122, 13]).lineNum = 3 :=
  c2_lines _ (by decide)

/-- Claim C3 (confirmed): the word count equals the number of maximal
contiguous runs of non-whitespace bytes; whitespace-only input yields 0
words; empty input yields 0 lines, 0 words, 0 bytes; the byte count
equals the number of bytes read. -/
theorem c3_words (bs : List Nat) (hb : ∀ b ∈ bs, b < 256) :
    (processBytes bs).wordNum = runCount bs
    ∧ ((∀ b ∈ bs, isWS b = true) → (processBytes bs).wordNum = 0)
    ∧ (processBytes []).lineNum = 0 ∧ (processBytes []).wordNum = 0
    ∧ (processBytes []).byteNum = 0
    ∧ (processBytes bs).byteNum = bs.length := by
  have hwords : (processBytes bs).wordNum = runCount bs := by
    unfold processBytes
    rw [words_fold bs wcInit hb]
    simp [wcInit]
  refine ⟨hwords, ?_, by decide, by decide, by decide, ?_⟩
  · intro hws
    rw [hwords]
    exact runCount_all_ws bs hws
  · unfold processBytes
    rw [bytes_fold]
    simp [wcInit]

/-- Claim C3, witness: the theorem applied to the bytes of
"foo \r\nbar". -/
theorem c3_words_witness :
    (processBytes [102, 111, 111, 32, 13, 10, 98, 97, 114]).wordNum
      = runCount [102, 111, 111, 32, 13, 10, 98, 97, 114]
    ∧ ((∀ b ∈ [102, 111, 111, 32, 13, 10, 98, 97, 114], isWS b = true) →
        (processBytes [102, 111, 111, 32, 13, 10, 98, 97, 114]).wordNum = 0)
    ∧ (processBytes []).lineNum = 0 ∧ (processBytes []).wordNum = 0
    ∧ (processBytes []).byteNum = 0
    ∧ (processBytes [102, 111, 111, 32, 13, 10, 98, 97, 114]).byteNum
      = [102, 111, 111, 32, 13, 10, 98, 97, 114].length :=
  c3_words _ (by decide)

/-- Helper: the running totals of the file loop equal the starting totals
plus the pairwise sums over the successfully processed sources. -/
theorem runFiles_eq : ∀ (srcs : List SrcOutcome) (t : Nat × Nat × Nat),
    runFiles srcs t
      = (t.1 + (sumTriples (successCounts srcs)).1,
         t.2.1 + (sumTriples (successCounts srcs)).2.1,
         t.2.2 + (sumTriples (successCounts srcs)).2.2) := by
  intro srcs
  induction srcs with
  | nil =>
    intro t
    simp [runFiles, successCounts, sumTriples]
  | cons s rest ih =>
    intro t
    cases s with
    | openFail =>
      show runFiles rest t = _
      rw [ih]
      simp [successCounts, countsOf]
    | stream bs err =>
      cases err with
      | true =>
        show runFiles rest t = _
        rw [ih]
        simp [successCounts, countsOf]
      | false =>
        show runFiles rest
            (t.1 + (processBytes bs).lineNum, t.2.1 + (processBytes bs).wordNum,
             t.2.2 + (processBytes bs).byteNum) = _
        rw [ih]
        simp only [successCounts, List.filterMap_cons, countsOf, Bool.false_eq_true,
          if_false, ite_false, sumTriples, List.map_cons, List.sum_cons, Prod.mk.injEq]
        refine ⟨by omega, by omega, by omega⟩

/-- Claim C6 (confirmed): for every multi-file run, the total counters
equal the exact pairwise sum of the counters of the successfully
processed sources; failed opens and read errors contribute nothing and
later sources are still processed. -/
theorem c6_totals (srcs : List SrcOutcome) :
    runFiles srcs (0, 0, 0) = sumTriples (successCounts srcs) := by
  rw [runFiles_eq]
  simp

/-- Helper: the iteration count does not depend on the depth bound, as
long as the bound is adequate. -/
theorem digitLoopF_congr : ∀ (f1 f2 n : Nat), n ≤ f1 → n ≤ f2 →
    digitLoopF f1 n = digitLoopF f2 n := by
  intro f1
  induction f1 with
  | zero =>
    intro f2 n h1 _
    have hn : n = 0 := by omega
    subst hn
    cases f2 with
    | zero => rfl
    | succ g => simp [digitLoopF]
  | succ f ih =>
    intro f2 n h1 h2
    cases f2 with
    | zero =>
      have hn : n = 0 := by omega
      subst hn
      simp [digitLoopF]
    | succ g =>
      simp only [digitLoopF]
      by_cases h : n < 10
      · rw [if_pos h, if_pos h]
      · rw [if_neg h, if_neg h]
        have hlt := Nat.div_lt_self (show 0 < n by omega) (show (1:Nat) < 10 by omega)
        rw [ih g (n / 10) (by omega) (by omega)]

/-- Helper: `digitLoop` satisfies the loop equation of
`while (n >= 10) n /= 10`. -/
theorem digitLoop_eq (n : Nat) :
    digitLoop n = if n < 10 then 0 else 1 + digitLoop (n / 10) := by
  unfold digitLoop
  by_cases h : n < 10
  · rw [if_pos h]
    cases n with
    | zero => rfl
    | succ m =>
      simp only [digitLoopF]
      rw [if_pos h]
  · rw [if_neg h]
    obtain ⟨m, rfl⟩ : ∃ m, n = m + 1 := ⟨n - 1, by omega⟩
    simp only [digitLoopF]
    rw [if_neg h]
    have hlt := Nat.div_lt_self (show 0 < m + 1 by omega) (show (1:Nat) < 10 by omega)
    rw [digitLoopF_congr m ((m + 1) / 10) ((m + 1) / 10) (by omega) (by omega)]

/-- Helper: the width loop computes exactly max(2, digitCount + 1). -/
theorem width_formula : ∀ (n : Nat), columnWidthOf n = max 2 (digitCount n + 1) := by
  intro n
  induction n using Nat.strong_induction_on with
  | _ n ih =>
    unfold columnWidthOf digitCount
    rw [digitLoop_eq]
    by_cases h : n < 10
    · rw [if_pos h]
      by_cases h0 : n = 0
      · subst h0
        simp
      · rw [Nat.digits_def' (by omega : (1:Nat) < 10) (by omega : 0 < n), Nat.div_eq_of_lt h]
        simp
    · rw [if_neg h]
      have hlen : 0 < (Nat.digits 10 (n / 10)).length := by
        have hq : 0 < n / 10 := Nat.div_pos (by omega) (by omega)
        exact List.length_pos.mpr (Nat.digits_ne_nil_iff_ne_zero.mpr (by omega))
      have ihh := ih (n / 10) (Nat.div_lt_self (by omega) (by omega))
      unfold columnWidthOf digitCount at ihh
      rw [Nat.digits_def' (by omega : (1:Nat) < 10) (by omega : 0 < n)]
      simp only [List.length_cons]
      omega

/-- Claim C7 (confirmed): the display column width equals
max(2, digitCount(total) + 1), with the total taken from the sum of the
precomputed sizes of the named sources, or from the stdin byte count when
there are none; totals 999 and 1000 give widths at least 4 and 5. -/
theorem c7_width (sizes stdinBytes : List Nat) :
    wcColumnWidth sizes stdinBytes
      = max 2 (digitCount (if 0 < sizes.length then sizes.sum
                           else (processBytes stdinBytes).byteNum) + 1)
    ∧ 4 ≤ wcColumnWidth [999] [] ∧ 5 ≤ wcColumnWidth [1000] [] := by
  refine ⟨?_, by decide, by decide⟩
  rcases sizes with _ | ⟨a, l⟩
  · unfold wcColumnWidth
    rw [if_neg (by simp), if_neg (by simp)]
    exact width_formula _
  · unfold wcColumnWidth
    rw [if_pos (by simp), if_pos (by simp)]
    exact width_formula _

/-- Claim C8, counterexample: two named sources of which only one is
successfully processed. The code emits the total row (it tests the number
of sources given), while the claim, which requires more than one
successfully processed source or stdin alone, says it must not. -/
theorem c8_cex :
    ¬ (emitsTotal [SrcOutcome.openFail, SrcOutcome.stream [] false] = true
        ↔ (1 < successNum [SrcOutcome.openFail, SrcOutcome.stream [] false]
            ∨ [SrcOutcome.openFail, SrcOutcome.stream [] false] = ([] : List SrcOutcome))) := by
  decide

/-- Claim C8 as amended: the total row is emitted exactly when more than
one named source was given on the command line (regardless of how many
were successfully processed) or when reading standard input alone; it is
labeled "total" in the named-source case and unlabeled for stdin. -/
theorem c8_total_row (srcs : List SrcOutcome) :
    (emitsTotal srcs = true ↔ (1 < srcs.length ∨ srcs = []))
    ∧ totalLabel srcs = (if srcs = [] then "" else "total") := by
  constructor
  · simp only [emitsTotal, Bool.or_eq_true, decide_eq_true_eq]
    rw [List.length_eq_zero]
    exact or_comm
  · unfold totalLabel
    rcases srcs with _ | ⟨s, rest⟩
    · simp
    · simp
